import Mathlib

/-!
# Verification development for the fBNC persistent-collection engine

Shallow embedding of the fBNC disk-resident collection types (`Mapx`, `Vecx`,
`Mapi`) and their helpers (`helper.rs`), together with proofs of the spec's
claims about them.

The embedded ordered byte-keyed engine (RocksDB) is modelled as a sorted
duplicate-free association list, the standard model of an ordered key-value
store: `get`/`put`/`delete` act on the list and iteration returns the list in
ascending key order.  Fallible operations return `Except`/`Option`; a
panicking unwrap (`pnk!`) is modelled by an explicit error outcome.
-/

namespace FBNC

/-! ## Definitions -/

section StoreDefs

variable {K V : Type} [LinearOrder K]

/-- The contents of one embedded ordered key-value store: an association list
kept sorted in strictly ascending key order (the engine's native byte order,
which the codec keeps aligned with the key type's logical order). -/
abbrev Store (K V : Type) := List (K × V)

/-- Point lookup: the value bound to `k`, scanning for the first match. -/
def getValue : Store K V → K → Option V
  | [], _ => none
  | (k0, v0) :: tl, k => if k = k0 then some v0 else getValue tl k

/-- Insert-or-overwrite keeping the ascending key order
(`set_value` of the backend store: `db.put(key, value)`). -/
def setValue : Store K V → K → V → Store K V
  | [], k, v => [(k, v)]
  | (k0, v0) :: tl, k, v =>
    if k < k0 then (k, v) :: (k0, v0) :: tl
    else if k = k0 then (k, v) :: tl
    else (k0, v0) :: setValue tl k v

/-- Delete a key (`db.delete(key)`). -/
def removeKey (m : Store K V) (k : K) : Store K V :=
  m.filter (fun e => e.1 ≠ k)

/-- Existence check: whether the store holds a binding for `k`. -/
def containsKey (m : Store K V) (k : K) : Bool :=
  decide (k ∈ m.map Prod.fst)

/-- Full ordered iteration: the engine yields its entries in its native
(ascending) key order, i.e. the list itself. -/
def iterEntries (m : Store K V) : List (K × V) := m

/-- The well-formedness invariant of a store: entries strictly ascending
by key. -/
def StoreSorted (m : Store K V) : Prop :=
  List.Pairwise (fun a b : K × V => a.1 < b.1) m

/-- `ValueMut` from `src/src/mapx/mod.rs`: the write-back guard returned by
`Mapx::get_mut`, holding a borrow of the originating map plus owned copies of
the key and the current value. -/
structure ValueMut (K V : Type) where
  mapx : Store K V
  key : K
  value : V

/-- `Mapx::get_mut` from `src/src/mapx/mod.rs`:
`self.in_disk.get(key).map(move |v| ValueMut::new(self, key.clone(), v))`. -/
def getMut (m : Store K V) (k : K) : Option (ValueMut K V) :=
  (getValue m k).map (fun v => ⟨m, k, v⟩)

/-- Mutation through the guard's mutable dereference: the in-guard copy of the
value is replaced; the map is untouched until the guard is dropped. -/
def modifyValue (g : ValueMut K V) (f : V → V) : ValueMut K V :=
  { g with value := f g.value }

/-- `impl Drop for ValueMut` from `src/src/mapx/mod.rs`: on scope exit the
guard takes its key and value out of their `ManuallyDrop` cells and performs
`self.mapx.set_value(key, value)`.  The second component records the list of
`set_value` calls the drop performs (the body contains exactly one). -/
def valueMutDrop (g : ValueMut K V) : Store K V × List (K × V) :=
  (setValue g.mapx g.key g.value, [(g.key, g.value)])

/-- `Entry::or_insert_with` from `src/src/mapx/mod.rs`:
`if !self.db.contains_key(&self.key) { self.db.set_value(key.clone(), default()) };
pnk!(self.db.get_mut(&self.key))`.  Returns the guard (`none` models the
`pnk!` panic case) together with the map after the conditional insert. -/
def orInsertWith (m : Store K V) (k : K) (default : Unit → V) :
    Option (ValueMut K V) × Store K V :=
  let m1 := if !(containsKey m k) then setValue m k (default ()) else m
  (getMut m1 k, m1)

/-- `Entry::or_insert` from `src/src/mapx/mod.rs`: same shape with an
already-computed default value. -/
def orInsert (m : Store K V) (k : K) (default : V) :
    Option (ValueMut K V) × Store K V :=
  let m1 := if !(containsKey m k) then setValue m k default else m
  (getMut m1 k, m1)

/-- One mutation of a Persistent Map: `Mapx::insert`/`set_value` or
`Mapx::remove`/`unset_value` (all delegate to the backend store). -/
inductive MapOp (K V : Type) where
  | insert (k : K) (v : V)
  | remove (k : K)

/-- Apply one mutation to the backend store. -/
def applyOp (m : Store K V) : MapOp K V → Store K V
  | .insert k v => setValue m k v
  | .remove k => removeKey m k

/-- Apply a finite sequence of mutations, oldest first. -/
def applyOps (m : Store K V) (ops : List (MapOp K V)) : Store K V :=
  ops.foldl applyOp m

end StoreDefs

section VecxDefs

variable {V : Type}

/-- Modelled from the spec: `Vecx`, the Persistent Sequence (src/vecx/mod.rs
is not part of the excerpt; only its test src/src/vecx/test.rs is).  Per spec
§4.5 it keeps an index-keyed store plus the Length Side-Channel; `push`
appends at index = current length and increments the length; observed test
behavior: `set_value` at an index ≥ the current length stores the slot and
increments the length by exactly 1, while an overwrite below the length
leaves the length unchanged. -/
structure Vecx (V : Type) where
  store : Store Nat V
  len : Nat

/-- `Vecx::get(index)`: point lookup in the index-keyed store. -/
def Vecx.get (s : Vecx V) (i : Nat) : Option V :=
  getValue s.store i

/-- Modelled from the spec: `Vecx::push(value)` appends at index = current
length and increments the Length Side-Channel. -/
def Vecx.push (s : Vecx V) (v : V) : Vecx V :=
  ⟨setValue s.store s.len v, s.len + 1⟩

/-- Modelled from the spec: `Vecx::set_value(index, value)` overwrites in
place below the length and otherwise stores the slot and increments the
length by 1 (test: with `len == cnt`, `set_value(2 * cnt, ..)` yields
`len == 1 + cnt`). -/
def Vecx.setValue (s : Vecx V) (i : Nat) (v : V) : Vecx V :=
  ⟨FBNC.setValue s.store i v, if s.len ≤ i then s.len + 1 else s.len⟩

end VecxDefs

section TryTwiceDefs

variable {E A : Type}

/-- `try_twice` from src/src/helper.rs:
`pnk!($ops.c(d!()).or_else(|e| { e.print(); $ops.c(d!()) }))`.
`ops n` is the result of the `n`-th evaluation of the wrapped expression.
Returns the final result handed to `pnk!`, the number of attempts made, and
the list of errors printed along the way. -/
def tryTwice (ops : Nat → Except E A) : Except E A × Nat × List E :=
  match ops 0 with
  | Except.ok a => (Except.ok a, 1, [])
  | Except.error e => (ops 1, 2, [e])

end TryTwiceDefs

section DbLenDefs

/-- Association-list filesystem / disk directory: path to contents. -/
def lookupPath {α : Type} : List (String × α) → String → Option α
  | [], _ => none
  | (p0, a) :: tl, p => if p = p0 then some a else lookupPath tl p

/-- `mem::size_of::<usize>()` on the 64-bit targets the crate runs on. -/
def USIZE_BYTES : Nat := 8

/-- `usize::to_le_bytes`: little-endian bytes of `n`, width `w`. -/
def toLeBytes : Nat → Nat → List Nat
  | 0, _ => []
  | w + 1, n => (n % 256) :: toLeBytes w (n / 256)

/-- `usize::from_le_bytes` over a byte list. -/
def fromLeBytes : List Nat → Nat
  | [] => 0
  | b :: tl => b + 256 * fromLeBytes tl

/-- Outcome of `read_db_len`: a returned length, a propagated I/O error, or
a panic of the in-function `unwrap`/slice indexing. -/
inductive LenReadResult where
  | ok (n : Nat)
  | err (path : String)
  | panicked
deriving DecidableEq

/-- `read_db_len` from src/src/helper.rs: `fs::read(path)` (error if the file
is missing), then
`usize::from_le_bytes(bytes[..mem::size_of::<usize>()].try_into().unwrap())`;
the slice `bytes[..8]` panics when the file holds fewer than 8 bytes. -/
def read_db_len (fs : List (String × List Nat)) (path : String) :
    LenReadResult :=
  match lookupPath fs path with
  | none => LenReadResult.err path
  | some bytes =>
    if bytes.length < USIZE_BYTES then LenReadResult.panicked
    else LenReadResult.ok (fromLeBytes (bytes.take USIZE_BYTES))

/-- `write_db_len` from src/src/helper.rs:
`fs::write(path, usize::to_le_bytes(len))` — replaces the file contents with
exactly the 8 little-endian bytes of `len`. -/
def write_db_len (fs : List (String × List Nat)) (path : String) (n : Nat) :
    List (String × List Nat) :=
  (path, toLeBytes USIZE_BYTES n) :: fs.filter (fun e => e.1 ≠ path)

end DbLenDefs

section MapiDefs

variable {K V : Type} [LinearOrder K]

/-- `Mapi::get_closest_smaller` from src/src/mapi.rs:
`self.inner.range(..key).rev().next()` — the last entry of the in-memory
`BTreeMap` (modelled as the sorted store) restricted to keys strictly below
`key`. -/
def getClosestSmaller (m : Store K V) (k : K) : Option (K × V) :=
  (m.filter (fun e => decide (e.1 < k))).getLast?

/-- `Mapi::get_closest_larger` from src/src/mapi.rs:
`self.inner.range(key..).next()` — the first entry with key at least `key`
(the range lower bound is inclusive). -/
def getClosestLarger (m : Store K V) (k : K) : Option (K × V) :=
  (m.filter (fun e => decide (k ≤ e.1))).head?

end MapiDefs

section EngineDefs

variable {K V : Type} [LinearOrder K]

/-- Process-level state of the embedded engine: the on-disk stores by
canonical path, and the set of canonical paths holding a live physical
engine connection in this process. -/
structure Engine (K V : Type) where
  disk : List (String × Store K V)
  conns : List String

/-- `rocksdb_open` from src/src/helper.rs: configures
`create_if_missing(true)`, compression and the open-file ceiling, then calls
`DB::open(&cfg, path)`.  A missing path is silently created as an empty
store; the engine refuses a second physical open of a path that already has
a live connection in this process (RocksDB's LOCK file, spec §7 "Registry
conflict"). -/
def rocksdb_open (st : Engine K V) (path : String) :
    Except String (Engine K V) :=
  if path ∈ st.conns then Except.error "IO error: lock file held"
  else
    match lookupPath st.disk path with
    | some _ => Except.ok ⟨st.disk, path :: st.conns⟩
    | none => Except.ok ⟨(path, []) :: st.disk, path :: st.conns⟩

/-- Modelled from the spec: the Store Registry `acquire` (§4.2), as performed
by the missing backend `Mapx::load_or_create` (src/mapx/backend.rs is not
part of the excerpt).  A canonical path that already has a live connection is
shared; otherwise a new physical connection is opened via `rocksdb_open`. -/
def acquire (st : Engine K V) (path : String) : Except String (Engine K V) :=
  if path ∈ st.conns then Except.ok st
  else rocksdb_open st path

/-- A live collection handle: the canonical path resolving to the shared
connection. -/
structure MapxHandle where
  path : String

/-- `Mapx::new` from src/src/mapx/mod.rs:
`backend::Mapx::load_or_create(path)`. -/
def mapxNew (st : Engine K V) (path : String) :
    Except String (Engine K V × MapxHandle) :=
  (acquire st path).map (fun st1 => (st1, ⟨path⟩))

/-- `Mapx::deserialize` from src/src/mapx/mod.rs: decode the reference
descriptor `CacheMeta { path }` and run `pnk!(Mapx::new(meta.path))`;
an `Except.error` result models the `pnk!` panic. -/
def mapxDeserialize (st : Engine K V) (descriptorPath : String) :
    Except String (Engine K V × MapxHandle) :=
  mapxNew st descriptorPath

/-- A write through a handle: `set_value` against the store at the handle's
canonical path (through the shared connection). -/
def handleSet (st : Engine K V) (h : MapxHandle) (k : K) (v : V) :
    Engine K V :=
  ⟨(h.path, setValue ((lookupPath st.disk h.path).getD []) k v) ::
      st.disk.filter (fun e => e.1 ≠ h.path),
    st.conns⟩

/-- A read through a handle: `get` against the store at the handle's
canonical path. -/
def handleGet (st : Engine K V) (h : MapxHandle) (k : K) : Option V :=
  (lookupPath st.disk h.path).bind (fun m => getValue m k)

end EngineDefs

/-! ## Helper lemmas about the store model -/

section StoreLemmas

variable {K V : Type} [LinearOrder K]

theorem getValue_setValue_self (m : Store K V) (k : K) (v : V) :
    getValue (setValue m k v) k = some v := by
  induction m with
  | nil => simp [setValue, getValue]
  | cons hd tl ih =>
    obtain ⟨k0, v0⟩ := hd
    by_cases hlt : k < k0
    · simp [setValue, hlt, getValue]
    · by_cases heq : k = k0
      · simp [setValue, hlt, heq, getValue]
      · simp [setValue, hlt, heq, getValue, ih]

theorem getValue_setValue_ne (m : Store K V) (k k' : K) (v : V)
    (hne : k' ≠ k) : getValue (setValue m k v) k' = getValue m k' := by
  induction m with
  | nil => simp [setValue, getValue, hne]
  | cons hd tl ih =>
    obtain ⟨k0, v0⟩ := hd
    by_cases hlt : k < k0
    · simp [setValue, hlt, getValue, hne]
    · by_cases heq : k = k0
      · subst heq
        simp [setValue, hlt, getValue, hne]
      · by_cases h0 : k' = k0
        · simp [setValue, hlt, heq, getValue, h0]
        · simp [setValue, hlt, heq, getValue, h0, ih]

theorem mem_setValue {m : Store K V} {k : K} {v : V} {e : K × V}
    (h : e ∈ setValue m k v) : e = (k, v) ∨ e ∈ m := by
  induction m with
  | nil => simpa [setValue] using h
  | cons hd tl ih =>
    obtain ⟨k0, v0⟩ := hd
    by_cases hlt : k < k0
    · simp [setValue, hlt] at h
      rcases h with h | h | h
      · exact Or.inl (by simp [h])
      · exact Or.inr (by simp [h])
      · exact Or.inr (by simp [h])
    · by_cases heq : k = k0
      · subst heq
        simp [setValue, hlt] at h
        rcases h with h | h
        · exact Or.inl (by simp [h])
        · exact Or.inr (by simp [h])
      · simp [setValue, hlt, heq] at h
        rcases h with h | h
        · exact Or.inr (by simp [h])
        · rcases ih h with h' | h'
          · exact Or.inl h'
          · exact Or.inr (by simp [h'])

theorem storeSorted_setValue {m : Store K V} (hs : StoreSorted m)
    (k : K) (v : V) : StoreSorted (setValue m k v) := by
  induction m with
  | nil => simp [setValue, StoreSorted]
  | cons hd tl ih =>
    obtain ⟨k0, v0⟩ := hd
    rw [StoreSorted, List.pairwise_cons] at hs
    obtain ⟨hhd, htl⟩ := hs
    by_cases hlt : k < k0
    · rw [StoreSorted]
      simp only [setValue, hlt, if_pos]
      refine List.Pairwise.cons ?_ (List.Pairwise.cons hhd htl)
      rintro ⟨k1, v1⟩ h1
      rcases List.mem_cons.mp h1 with h | h
      · simp at h
        simpa [h.1] using hlt
      · exact lt_trans hlt (hhd _ h)
    · by_cases heq : k = k0
      · subst heq
        rw [StoreSorted]
        show List.Pairwise _ (if k < k then _ else if k = k then (k, v) :: tl else _)
        rw [if_neg (lt_irrefl k), if_pos rfl]
        exact List.Pairwise.cons hhd htl
      · have hgt : k0 < k := by
          rcases lt_trichotomy k k0 with h | h | h
          · exact absurd h hlt
          · exact absurd h heq
          · exact h
        rw [StoreSorted]
        simp only [setValue, hlt, heq, if_neg, not_false_iff]
        refine List.Pairwise.cons ?_ (ih htl)
        rintro ⟨k1, v1⟩ h1
        rcases mem_setValue h1 with h | h
        · simp at h
          simpa [h.1] using hgt
        · exact hhd _ h

theorem storeSorted_removeKey {m : Store K V} (hs : StoreSorted m)
    (k : K) : StoreSorted (removeKey m k) :=
  List.Pairwise.sublist (List.filter_sublist m) hs

theorem getValue_removeKey_self (m : Store K V) (k : K) :
    getValue (removeKey m k) k = none := by
  induction m with
  | nil => simp [removeKey, getValue]
  | cons hd tl ih =>
    obtain ⟨k0, v0⟩ := hd
    by_cases h : k0 = k
    · subst h
      simpa [removeKey] using ih
    · have : getValue (removeKey tl k) k = none := ih
      simp [removeKey, h, getValue, Ne.symm h] at this ⊢
      exact this

theorem getValue_removeKey_ne (m : Store K V) (k k' : K)
    (hne : k' ≠ k) : getValue (removeKey m k) k' = getValue m k' := by
  induction m with
  | nil => simp [removeKey]
  | cons hd tl ih =>
    obtain ⟨k0, v0⟩ := hd
    by_cases h : k0 = k
    · subst h
      have hne' : k' ≠ k0 := hne
      simp [removeKey, getValue, hne'] at ih ⊢
      exact ih
    · by_cases h0 : k' = k0
      · simp [removeKey, h, getValue, h0]
      · simp [removeKey, h, getValue, h0] at ih ⊢
        exact ih

theorem getValue_isSome_iff_mem (m : Store K V) (k : K) :
    (getValue m k).isSome ↔ k ∈ m.map Prod.fst := by
  induction m with
  | nil => simp [getValue]
  | cons hd tl ih =>
    obtain ⟨k0, v0⟩ := hd
    by_cases h : k = k0
    · simp [getValue, h]
    · simp [getValue, h, ih]

theorem containsKey_eq_isSome (m : Store K V) (k : K) :
    containsKey m k = (getValue m k).isSome := by
  rw [containsKey]
  by_cases h : (getValue m k).isSome
  · rw [h, decide_eq_true_eq]
    exact (getValue_isSome_iff_mem m k).mp h
  · simp only [Bool.not_eq_true] at h
    rw [h, decide_eq_false_iff_not]
    intro hmem
    rw [← getValue_isSome_iff_mem] at hmem
    rw [h] at hmem
    cases hmem

theorem getValue_eq_none_of_forall_gt {m : Store K V} {k : K}
    (h : ∀ e ∈ m, k < e.1) : getValue m k = none := by
  induction m with
  | nil => rfl
  | cons hd tl ih =>
    obtain ⟨k0, v0⟩ := hd
    have hk0 : k < k0 := h (k0, v0) (List.mem_cons_self _ _)
    rw [getValue, if_neg (ne_of_lt hk0)]
    exact ih (fun e he => h e (List.mem_cons_of_mem _ he))

theorem setValue_self {m : Store K V} {k : K} {v : V}
    (hs : StoreSorted m) (h : getValue m k = some v) : setValue m k v = m := by
  induction m with
  | nil => cases h
  | cons hd tl ih =>
    obtain ⟨k0, v0⟩ := hd
    rw [StoreSorted, List.pairwise_cons] at hs
    obtain ⟨hhd, htl⟩ := hs
    by_cases hlt : k < k0
    · exfalso
      rw [getValue, if_neg (ne_of_lt hlt)] at h
      have : getValue tl k = none :=
        getValue_eq_none_of_forall_gt (fun e he => lt_trans hlt (hhd e he))
      rw [this] at h
      cases h
    · by_cases heq : k = k0
      · subst heq
        rw [getValue, if_pos rfl] at h
        obtain rfl : v0 = v := Option.some_injective _ h
        show (if k < k then _ else if k = k then (k, v0) :: tl else _) = _
        rw [if_neg (lt_irrefl k), if_pos rfl]
      · rw [getValue, if_neg heq] at h
        show (if k < k0 then _ else if k = k0 then _
          else (k0, v0) :: setValue tl k v) = _
        rw [if_neg hlt, if_neg heq, ih htl h]

theorem storeSorted_applyOp {m : Store K V} (hs : StoreSorted m)
    (op : MapOp K V) : StoreSorted (applyOp m op) := by
  cases op with
  | insert k v => exact storeSorted_setValue hs k v
  | remove k => exact storeSorted_removeKey hs k

theorem storeSorted_applyOps {m : Store K V} (hs : StoreSorted m)
    (ops : List (MapOp K V)) : StoreSorted (applyOps m ops) := by
  induction ops generalizing m with
  | nil => exact hs
  | cons op tl ih => exact ih (storeSorted_applyOp hs op)

theorem keys_nodup_of_sorted {m : Store K V} (hs : StoreSorted m) :
    (m.map Prod.fst).Nodup := by
  rw [List.Nodup, List.pairwise_map]
  exact hs.imp (fun h => ne_of_lt h)

end StoreLemmas

section DbLenLemmas

theorem toLeBytes_length (w n : Nat) : (toLeBytes w n).length = w := by
  induction w generalizing n with
  | zero => rfl
  | succ w ih => simp [toLeBytes, ih]

theorem fromLeBytes_toLeBytes (w n : Nat) (h : n < 256 ^ w) :
    fromLeBytes (toLeBytes w n) = n := by
  induction w generalizing n with
  | zero =>
    rw [pow_zero] at h
    have : n = 0 := Nat.lt_one_iff.mp h
    simp [this, toLeBytes, fromLeBytes]
  | succ w ih =>
    have hdiv : n / 256 < 256 ^ w := by
      rw [pow_succ] at h
      exact (Nat.div_lt_iff_lt_mul (by norm_num)).mpr h
    rw [toLeBytes, fromLeBytes, ih (n / 256) hdiv]
    omega

end DbLenLemmas

section SortedNeighborLemmas

variable {K V : Type} [LinearOrder K]

theorem le_getLast_of_sorted {l : List (K × V)} {p : K × V}
    (hs : List.Pairwise (fun a b : K × V => a.1 < b.1) l)
    (hl : l.getLast? = some p) : ∀ q ∈ l, q.1 ≤ p.1 := by
  induction l with
  | nil => cases hl
  | cons a tl ih =>
    rcases tl with _ | ⟨b, tl'⟩
    · obtain rfl : a = p := by simpa [List.getLast?] using hl
      intro q hq
      obtain rfl : q = a := by simpa using hq
      exact le_refl _
    · rw [List.getLast?_cons_cons] at hl
      rw [List.pairwise_cons] at hs
      obtain ⟨ha, htl⟩ := hs
      intro q hq
      rcases List.mem_cons.mp hq with rfl | hq
      · exact le_of_lt (ha p (List.mem_of_getLast?_eq_some hl))
      · exact ih htl hl q hq

theorem head_le_of_sorted {l : List (K × V)} {p : K × V}
    (hs : List.Pairwise (fun a b : K × V => a.1 < b.1) l)
    (hl : l.head? = some p) : ∀ q ∈ l, p.1 ≤ q.1 := by
  rcases l with _ | ⟨a, tl⟩
  · cases hl
  · obtain rfl : a = p := by simpa using hl
    rw [List.pairwise_cons] at hs
    intro q hq
    rcases List.mem_cons.mp hq with rfl | hq
    · exact le_refl _
    · exact le_of_lt (hs.1 q hq)

theorem getClosestLarger_self {m : Store K V} (hs : StoreSorted m)
    {k : K} {v : V} (hv : (k, v) ∈ m) :
    getClosestLarger m k = some (k, v) := by
  induction m with
  | nil => cases hv
  | cons a tl ih =>
    obtain ⟨k0, v0⟩ := a
    rw [StoreSorted, List.pairwise_cons] at hs
    obtain ⟨hhd, htl⟩ := hs
    rcases List.mem_cons.mp hv with heq | hv'
    · obtain ⟨rfl, rfl⟩ : k = k0 ∧ v = v0 := Prod.mk.injEq .. ▸ heq
      rw [getClosestLarger, List.filter_cons, if_pos (by simp)]
      rfl
    · have hk0 : k0 < k := hhd (k, v) hv'
      have hrec := ih htl hv'
      rw [getClosestLarger] at hrec ⊢
      rw [List.filter_cons, if_neg (by simpa using not_le.mpr hk0)]
      exact hrec

end SortedNeighborLemmas

section EngineLemmas

variable {K V : Type} [LinearOrder K]

theorem handleGet_handleSet_same (st : Engine K V) (p : String)
    (k : K) (v : V) :
    handleGet (handleSet st ⟨p⟩ k v) ⟨p⟩ k = some v := by
  rw [handleGet, handleSet]
  show (lookupPath ((p, _) :: _) p).bind _ = _
  rw [lookupPath, if_pos rfl]
  exact getValue_setValue_self _ k v

end EngineLemmas

/-! ## Claim theorems -/

/-- C5: for every sequence state, `push(v)` makes `get(len()-1)` return `v`
and increases `len()` by exactly 1, and `set_value(len(), v)` — overwrite at
the index equal to the current length — has exactly the same effect as
`push(v)`. -/
theorem vecx_push_growth_law {V : Type} (s : Vecx V) (v : V) :
    (s.push v).get ((s.push v).len - 1) = some v ∧
    (s.push v).len = s.len + 1 ∧
    s.setValue s.len v = s.push v := by
  refine ⟨?_, rfl, ?_⟩
  · show getValue (setValue s.store s.len v) (s.len + 1 - 1) = some v
    simpa using getValue_setValue_self s.store s.len v
  · show (⟨FBNC.setValue s.store s.len v,
      if s.len ≤ s.len then s.len + 1 else s.len⟩ : Vecx V) = _
    rw [if_pos (le_refl s.len)]
    rfl

/-- C6: after every finite sequence of insert and remove operations on an
initially empty map, `len()` equals the number of distinct keys currently
holding a live value, and `contains_key(k)` holds iff `get(k)` is `Some`. -/
theorem mapx_len_contains_invariant {K V : Type} [LinearOrder K]
    (ops : List (MapOp K V)) :
    (applyOps [] ops).length =
      ((applyOps [] ops).map Prod.fst).toFinset.card ∧
    (∀ k, k ∈ ((applyOps [] ops).map Prod.fst).toFinset ↔
      (getValue (applyOps [] ops) k).isSome) ∧
    (∀ k, containsKey (applyOps [] ops) k =
      (getValue (applyOps [] ops) k).isSome) := by
  have hs : StoreSorted (applyOps ([] : Store K V) ops) :=
    storeSorted_applyOps List.Pairwise.nil ops
  have hnd := keys_nodup_of_sorted hs
  refine ⟨?_, ?_, ?_⟩
  · rw [List.toFinset_card_of_nodup hnd, List.length_map]
  · intro k
    rw [List.mem_toFinset, ← getValue_isSome_iff_mem]
  · intro k
    exact containsKey_eq_isSome _ k

/-- C7: for every map state reached by any mix of insertions and removals
from an initially empty map, iterating all entries yields the keys in
strictly ascending order of the key type's natural total order. -/
theorem mapx_iter_ascending {K V : Type} [LinearOrder K]
    (ops : List (MapOp K V)) :
    List.Pairwise (fun a b : K × V => a.1 < b.1)
      (iterEntries (applyOps [] ops)) :=
  storeSorted_applyOps List.Pairwise.nil ops

/-- C8: `try_twice` re-attempts the operation exactly once after a first
failure, after logging the first error; it never makes more than two
attempts, and a success on either attempt yields the successful result. -/
theorem try_twice_retries_once {E A : Type} (ops : Nat → Except E A) :
    (tryTwice ops).2.1 ≤ 2 ∧
    (∀ a, ops 0 = Except.ok a →
      tryTwice ops = (Except.ok a, 1, ([] : List E))) ∧
    (∀ e, ops 0 = Except.error e →
      tryTwice ops = (ops 1, 2, [e])) := by
  refine ⟨?_, ?_, ?_⟩
  · rcases h : ops 0 with e | a <;> simp [tryTwice, h]
  · intro a h
    simp [tryTwice, h]
  · intro e h
    simp [tryTwice, h]

/-- C8 witness: a first failing attempt is logged and retried exactly once;
the second attempt's success is returned. -/
theorem try_twice_retries_once_witness :
    (fun n => if n = 0 then Except.error "boom" else Except.ok (7 : Nat)) 0 =
      Except.error "boom" ∧
    tryTwice (fun n => if n = 0 then Except.error "boom"
      else Except.ok (7 : Nat)) = (Except.ok 7, 2, ["boom"]) := by
  refine ⟨rfl, ?_⟩
  have h := (try_twice_retries_once
    (fun n => if n = 0 then Except.error "boom"
      else Except.ok (7 : Nat))).2.2 "boom" rfl
  rw [h]
  rfl

/-- C9: `read_db_len` returns the little-endian interpretation of exactly
the first `size_of::<usize>()` bytes of the length side file, ignoring any
trailing bytes; a file holding fewer than 8 bytes makes the slice-and-unwrap
panic rather than return an error; and for every length `n`,
`write_db_len(path, n)` followed by `read_db_len(path)` returns `Ok(n)`. -/
theorem read_write_db_len_spec (fs : List (String × List Nat))
    (path : String) (bytes : List Nat) (n : Nat) :
    (lookupPath fs path = some bytes → USIZE_BYTES ≤ bytes.length →
      read_db_len fs path =
        LenReadResult.ok (fromLeBytes (bytes.take USIZE_BYTES))) ∧
    (lookupPath fs path = some bytes → bytes.length < USIZE_BYTES →
      read_db_len fs path = LenReadResult.panicked) ∧
    (n < 256 ^ USIZE_BYTES →
      read_db_len (write_db_len fs path n) path = LenReadResult.ok n) := by
  refine ⟨?_, ?_, ?_⟩
  · intro hb hlen
    rw [read_db_len, hb]
    show (if bytes.length < USIZE_BYTES then LenReadResult.panicked
      else LenReadResult.ok (fromLeBytes (List.take USIZE_BYTES bytes))) = _
    rw [if_neg (Nat.not_lt.mpr hlen)]
  · intro hb hlen
    rw [read_db_len, hb]
    show (if bytes.length < USIZE_BYTES then LenReadResult.panicked
      else LenReadResult.ok (fromLeBytes (List.take USIZE_BYTES bytes))) = _
    rw [if_pos hlen]
  · intro hn
    have hfind : lookupPath (write_db_len fs path n) path =
        some (toLeBytes USIZE_BYTES n) := by
      rw [write_db_len, lookupPath, if_pos rfl]
    rw [read_db_len, hfind]
    show (if (toLeBytes USIZE_BYTES n).length < USIZE_BYTES
      then LenReadResult.panicked
      else LenReadResult.ok
        (fromLeBytes (List.take USIZE_BYTES (toLeBytes USIZE_BYTES n)))) = _
    rw [if_neg (Nat.not_lt.mpr (le_of_eq (toLeBytes_length USIZE_BYTES n).symm))]
    rw [List.take_of_length_le (le_of_eq (toLeBytes_length USIZE_BYTES n))]
    rw [fromLeBytes_toLeBytes USIZE_BYTES n hn]

/-- C9 witness: a 9-byte file reads as the little-endian value of its first
8 bytes; a 3-byte file panics; writing 5 then reading yields 5. -/
theorem read_write_db_len_spec_witness :
    read_db_len [("L", [1, 0, 0, 0, 0, 0, 0, 0, 9])] "L" =
      LenReadResult.ok 1 ∧
    read_db_len [("S", [1, 2, 3])] "S" = LenReadResult.panicked ∧
    read_db_len (write_db_len [] "L" 5) "L" = LenReadResult.ok 5 := by
  refine ⟨?_, ?_, ?_⟩
  · have h := (read_write_db_len_spec [("L", [1, 0, 0, 0, 0, 0, 0, 0, 9])]
      "L" [1, 0, 0, 0, 0, 0, 0, 0, 9] 0).1 rfl (by decide)
    rw [h]
    rfl
  · exact (read_write_db_len_spec [("S", [1, 2, 3])] "S" [1, 2, 3] 0).2.1
      rfl (by decide)
  · exact (read_write_db_len_spec [] "L" [] 5).2.2 (by norm_num [USIZE_BYTES])

/-- C3: a Write-Back Guard obtained from `Mapx::get_mut` on a present key
performs `set_value(key, value)` against the originating map exactly once on
drop — its drop body issues the single write-back `[(key, value)]` — so a
mutation made through the guard is visible to a subsequent `get`, and a
guard that was never mutated leaves the stored map unchanged. -/
theorem mapx_value_mut_write_back {K V : Type} [LinearOrder K]
    (m : Store K V) (k : K) (v : V) (f : V → V)
    (hs : StoreSorted m) (h : getValue m k = some v) :
    getMut m k = some ⟨m, k, v⟩ ∧
    (valueMutDrop (modifyValue ⟨m, k, v⟩ f)).2 = [(k, f v)] ∧
    getValue (valueMutDrop (modifyValue ⟨m, k, v⟩ f)).1 k = some (f v) ∧
    (valueMutDrop ⟨m, k, v⟩).2 = [(k, v)] ∧
    (valueMutDrop ⟨m, k, v⟩).1 = m := by
  refine ⟨?_, rfl, ?_, rfl, ?_⟩
  · rw [getMut, h]
    rfl
  · exact getValue_setValue_self m k (f v)
  · exact setValue_self hs h

/-- C3 witness: on the concrete sorted map `[(1, 10), (2, 20)]`, the guard
for key 1 writes back once, a `+5` mutation becomes visible, and an
unmutated guard leaves the map unchanged. -/
theorem mapx_value_mut_write_back_witness :
    StoreSorted [(1, 10), (2, 20)] ∧
    getValue [(1, 10), (2, 20)] 1 = some 10 ∧
    (getMut [(1, 10), (2, 20)] 1 = some ⟨[(1, 10), (2, 20)], 1, 10⟩ ∧
      (valueMutDrop (modifyValue ⟨[(1, 10), (2, 20)], 1, 10⟩
        (fun x => x + 5))).2 = [(1, 15)] ∧
      getValue (valueMutDrop (modifyValue ⟨[(1, 10), (2, 20)], 1, 10⟩
        (fun x => x + 5))).1 1 = some 15 ∧
      (valueMutDrop (⟨[(1, 10), (2, 20)], 1, 10⟩ : ValueMut Nat Nat)).2 =
        [(1, 10)] ∧
      (valueMutDrop (⟨[(1, 10), (2, 20)], 1, 10⟩ : ValueMut Nat Nat)).1 =
        [(1, 10), (2, 20)]) := by
  have hs : StoreSorted [((1 : Nat), (10 : Nat)), (2, 20)] := by
    show List.Pairwise _ _
    decide
  exact ⟨hs, rfl,
    mapx_value_mut_write_back [(1, 10), (2, 20)] 1 10 (fun x => x + 5) hs rfl⟩

/-- C4: `entry(key).or_insert_with(factory)` does not invoke the factory
when the key is present (the result does not depend on the factory) and
returns the existing value via the guard, leaving the map unchanged; when
the key is absent it writes `factory()` under the key and returns a guard
positioned at that key holding that value.  `or_insert(default)` likewise
discards the default and returns the existing value when the key is
present. -/
theorem mapx_entry_or_insert_spec {K V : Type} [LinearOrder K]
    (m : Store K V) (k : K) :
    (∀ (v : V) (fac fac' : Unit → V) (d : V), getValue m k = some v →
      orInsertWith m k fac = orInsertWith m k fac' ∧
      orInsertWith m k fac = (some ⟨m, k, v⟩, m) ∧
      orInsert m k d = (some ⟨m, k, v⟩, m)) ∧
    (∀ fac : Unit → V, getValue m k = none →
      orInsertWith m k fac =
        (some ⟨setValue m k (fac ()), k, fac ()⟩, setValue m k (fac ()))) := by
  constructor
  · intro v fac fac' d h
    have hc : containsKey m k = true := by
      rw [containsKey_eq_isSome, h]
      rfl
    refine ⟨?_, ?_, ?_⟩ <;>
      simp [orInsertWith, orInsert, hc, getMut, h]
  · intro fac h
    have hc : containsKey m k = false := by
      rw [containsKey_eq_isSome, h]
      rfl
    simp [orInsertWith, hc, getMut, getValue_setValue_self]

/-- C4 witness: on `[(2, 20)]`, `or_insert_with` at the present key 2
ignores the factory and returns 20 with the map unchanged; at the absent key
3 it inserts the factory value 99 and returns a guard holding it. -/
theorem mapx_entry_or_insert_spec_witness :
    getValue [((2 : Nat), (20 : Nat))] 2 = some 20 ∧
    (orInsertWith [(2, 20)] 2 (fun _ => 99) =
        orInsertWith [(2, 20)] 2 (fun _ => 100) ∧
      orInsertWith [(2, 20)] 2 (fun _ => 99) =
        (some ⟨[(2, 20)], 2, 20⟩, [(2, 20)]) ∧
      orInsert [(2, 20)] 2 7 = (some ⟨[(2, 20)], 2, 20⟩, [(2, 20)])) ∧
    getValue [((2 : Nat), (20 : Nat))] 3 = none ∧
    orInsertWith [(2, 20)] 3 (fun _ => 99) =
      (some ⟨[(2, 20), (3, 99)], 3, 99⟩, [(2, 20), (3, 99)]) := by
  refine ⟨rfl, ?_, rfl, ?_⟩
  · exact (mapx_entry_or_insert_spec [(2, 20)] 2).1 20 (fun _ => 99)
      (fun _ => 100) 7 rfl
  · have h := (mapx_entry_or_insert_spec [((2 : Nat), (20 : Nat))] 3).2
      (fun _ => 99) rfl
    rw [h]
    rfl

/-- C10: the in-memory mirror's neighbor queries are asymmetric:
`get_closest_smaller(k)` returns the entry with the greatest key strictly
less than `k` (never `k` itself, even when present), while
`get_closest_larger(k)` returns the entry with the smallest key greater than
or equal to `k` — in particular `(k, v)` itself whenever `k` is present. -/
theorem mapi_closest_neighbor_asymmetry {K V : Type} [LinearOrder K]
    (m : Store K V) (k : K) (hs : StoreSorted m) :
    (∀ p : K × V, getClosestSmaller m k = some p →
      p ∈ m ∧ p.1 < k ∧ ∀ q ∈ m, q.1 < k → q.1 ≤ p.1) ∧
    (getClosestSmaller m k = none → ∀ q ∈ m, ¬(q.1 < k)) ∧
    (∀ p : K × V, getClosestLarger m k = some p →
      p ∈ m ∧ k ≤ p.1 ∧ ∀ q ∈ m, k ≤ q.1 → p.1 ≤ q.1) ∧
    (∀ v : V, (k, v) ∈ m → getClosestLarger m k = some (k, v)) := by
  have hsm : List.Pairwise (fun a b : K × V => a.1 < b.1)
      (m.filter (fun e => decide (e.1 < k))) :=
    List.Pairwise.sublist (List.filter_sublist m) hs
  have hlg : List.Pairwise (fun a b : K × V => a.1 < b.1)
      (m.filter (fun e => decide (k ≤ e.1))) :=
    List.Pairwise.sublist (List.filter_sublist m) hs
  refine ⟨?_, ?_, ?_, ?_⟩
  · intro p hp
    have hpmem := List.mem_of_getLast?_eq_some hp
    have hpf := List.mem_filter.mp hpmem
    refine ⟨hpf.1, by simpa using hpf.2, ?_⟩
    intro q hq hqk
    exact le_getLast_of_sorted hsm hp q
      (List.mem_filter.mpr ⟨hq, by simpa using hqk⟩)
  · intro hnone q hq hqk
    rw [getClosestSmaller, List.getLast?_eq_none_iff] at hnone
    have : q ∈ m.filter (fun e => decide (e.1 < k)) :=
      List.mem_filter.mpr ⟨hq, by simpa using hqk⟩
    rw [hnone] at this
    cases this
  · intro p hp
    have hpmem : p ∈ m.filter (fun e => decide (k ≤ e.1)) := by
      rcases List.head?_eq_some_iff.mp hp with ⟨ys, hys⟩
      rw [hys]
      exact List.mem_cons_self _ _
    have hpf := List.mem_filter.mp hpmem
    refine ⟨hpf.1, by simpa using hpf.2, ?_⟩
    intro q hq hqk
    exact head_le_of_sorted hlg hp q
      (List.mem_filter.mpr ⟨hq, by simpa using hqk⟩)
  · intro v hv
    exact getClosestLarger_self hs hv

/-- C10 witness: on the sorted map `[(1,10), (3,30), (5,50)]` with `k = 3`,
the smaller-neighbor query skips the present key 3 and returns `(1, 10)`
while the larger-neighbor query returns `(3, 30)` itself. -/
theorem mapi_closest_neighbor_asymmetry_witness :
    StoreSorted [((1 : Nat), (10 : Nat)), (3, 30), (5, 50)] ∧
    getClosestSmaller [((1 : Nat), (10 : Nat)), (3, 30), (5, 50)] 3 =
      some (1, 10) ∧
    ((1, 10) ∈ [((1 : Nat), (10 : Nat)), (3, 30), (5, 50)] ∧ (1 : Nat) < 3 ∧
      ∀ q ∈ [((1 : Nat), (10 : Nat)), (3, 30), (5, 50)],
        q.1 < 3 → q.1 ≤ 1) ∧
    getClosestLarger [((1 : Nat), (10 : Nat)), (3, 30), (5, 50)] 3 =
      some (3, 30) := by
  have hs : StoreSorted [((1 : Nat), (10 : Nat)), (3, 30), (5, 50)] := by
    show List.Pairwise _ _
    decide
  refine ⟨hs, by decide, ?_, ?_⟩
  · exact (mapi_closest_neighbor_asymmetry _ 3 hs).1 (1, 10) (by decide)
  · exact (mapi_closest_neighbor_asymmetry _ 3 hs).2.2.2 30 (by decide)

/-- C1: reconstructing a collection handle from the same reference
descriptor twice does not crash: both deserializations succeed, both handles
resolve to the same canonical path, afterwards exactly one physical engine
connection to that path exists in the process, and the two handles share
state — a write through one is observed by a read through the other. -/
theorem mapx_deserialize_twice_shares {K V : Type} [LinearOrder K]
    (st : Engine K V) (p : String) (hnd : st.conns.Nodup) :
    ∃ (st1 st2 : Engine K V) (h1 h2 : MapxHandle),
      mapxDeserialize st p = Except.ok (st1, h1) ∧
      mapxDeserialize st1 p = Except.ok (st2, h2) ∧
      h1.path = p ∧ h2.path = p ∧
      st2.conns.Nodup ∧ st2.conns.count p = 1 ∧
      ∀ (k : K) (v : V), handleGet (handleSet st2 h1 k v) h2 k = some v := by
  by_cases hc : p ∈ st.conns
  · refine ⟨st, st, ⟨p⟩, ⟨p⟩, ?_, ?_, rfl, rfl, hnd, ?_, ?_⟩
    · simp [mapxDeserialize, mapxNew, acquire, hc]
      rfl
    · simp [mapxDeserialize, mapxNew, acquire, hc]
      rfl
    · exact List.count_eq_one_of_mem hnd hc
    · intro k v
      exact handleGet_handleSet_same st p k v
  · have hopen : acquire st p = rocksdb_open st p := by
      rw [acquire, if_neg hc]
    have hnd1 : (p :: st.conns).Nodup := List.nodup_cons.mpr ⟨hc, hnd⟩
    have hcnt : (p :: st.conns).count p = 1 := by
      rw [List.count_cons_self, List.count_eq_zero_of_not_mem hc]
    rcases hdisk : lookupPath st.disk p with _ | s
    · refine ⟨⟨(p, []) :: st.disk, p :: st.conns⟩,
        ⟨(p, []) :: st.disk, p :: st.conns⟩, ⟨p⟩, ⟨p⟩,
        ?_, ?_, rfl, rfl, hnd1, hcnt, ?_⟩
      · rw [mapxDeserialize, mapxNew, hopen, rocksdb_open, if_neg hc, hdisk]
        rfl
      · simp [mapxDeserialize, mapxNew, acquire, List.mem_cons_self]
        rfl
      · intro k v
        exact handleGet_handleSet_same _ p k v
    · refine ⟨⟨st.disk, p :: st.conns⟩, ⟨st.disk, p :: st.conns⟩, ⟨p⟩, ⟨p⟩,
        ?_, ?_, rfl, rfl, hnd1, hcnt, ?_⟩
      · rw [mapxDeserialize, mapxNew, hopen, rocksdb_open, if_neg hc, hdisk]
        rfl
      · simp [mapxDeserialize, mapxNew, acquire, List.mem_cons_self]
        rfl
      · intro k v
        exact handleGet_handleSet_same _ p k v

/-- C1 witness: from the fresh process state, deserializing the descriptor
`/a` twice succeeds with one shared connection and cross-handle
visibility. -/
theorem mapx_deserialize_twice_shares_witness :
    (⟨[], []⟩ : Engine Nat Nat).conns.Nodup ∧
    (∃ (st1 st2 : Engine Nat Nat) (h1 h2 : MapxHandle),
      mapxDeserialize (⟨[], []⟩ : Engine Nat Nat) "/a" =
        Except.ok (st1, h1) ∧
      mapxDeserialize st1 "/a" = Except.ok (st2, h2) ∧
      h1.path = "/a" ∧ h2.path = "/a" ∧
      st2.conns.Nodup ∧ st2.conns.count "/a" = 1 ∧
      ∀ (k v : Nat), handleGet (handleSet st2 h1 k v) h2 k = some v) :=
  ⟨List.nodup_nil,
    mapx_deserialize_twice_shares (⟨[], []⟩ : Engine Nat Nat) "/a"
      List.nodup_nil⟩

/-- C2 counterexample: in the concrete process state with nothing on disk
and no live connection, deserializing the descriptor `/gone` — a path that
does not exist — does not fail with an error: it succeeds, silently creating
an empty store at that path, contrary to the claim that reconstruction must
fail with `PathNotFoundError` or similar. -/
theorem mapx_deserialize_missing_counterexample :
    lookupPath (⟨[], []⟩ : Engine Nat Nat).disk "/gone" = none ∧
    mapxDeserialize (⟨[], []⟩ : Engine Nat Nat) "/gone" =
      Except.ok (⟨[("/gone", [])], ["/gone"]⟩, ⟨"/gone"⟩) := by
  constructor
  · rfl
  · rfl

/-- C2 amended: reconstructing a handle from a reference descriptor whose
storage path no longer exists does not fail — `rocksdb_open` passes
`create_if_missing(true)`, so the open silently creates an empty-but-valid
collection at that path and every lookup through the reconstructed handle
returns nothing. -/
theorem mapx_deserialize_missing_creates_empty {K V : Type} [LinearOrder K]
    (st : Engine K V) (p : String) (hc : p ∉ st.conns)
    (hd : lookupPath st.disk p = none) :
    mapxDeserialize st p =
      Except.ok (⟨(p, []) :: st.disk, p :: st.conns⟩, ⟨p⟩) ∧
    ∀ k : K,
      handleGet (⟨(p, []) :: st.disk, p :: st.conns⟩ : Engine K V) ⟨p⟩ k =
        none := by
  constructor
  · rw [mapxDeserialize, mapxNew, acquire, if_neg hc, rocksdb_open,
      if_neg hc, hd]
    rfl
  · intro k
    rw [handleGet]
    show (lookupPath ((p, []) :: st.disk) p).bind _ = _
    rw [lookupPath, if_pos rfl]
    rfl

/-- C2 amended witness: deserializing `/gone` from the fresh state attaches
to a freshly created empty collection. -/
theorem mapx_deserialize_missing_creates_empty_witness :
    ("/gone" ∉ (⟨[], []⟩ : Engine Nat Nat).conns) ∧
    lookupPath (⟨[], []⟩ : Engine Nat Nat).disk "/gone" = none ∧
    (mapxDeserialize (⟨[], []⟩ : Engine Nat Nat) "/gone" =
        Except.ok (⟨[("/gone", [])], ["/gone"]⟩, ⟨"/gone"⟩) ∧
      ∀ k : Nat,
        handleGet (⟨[("/gone", [])], ["/gone"]⟩ : Engine Nat Nat) ⟨"/gone"⟩ k =
          none) :=
  ⟨by simp, rfl,
    mapx_deserialize_missing_creates_empty (⟨[], []⟩ : Engine Nat Nat)
      "/gone" (by simp) rfl⟩

end FBNC
